import Mathlib

/-!
Verification of the engagement-analytics pipeline (`analytics.py`).

The pipeline is embedded shallowly: a tabular row becomes a structure, a
numeric cell that may fail to parse becomes `Option ℚ` (with `none` playing
the role of `NaN`), a date cell that may fail to parse becomes `Option Int`
(dates are abstracted as integers, which carries the linear order the code
relies on), and every pandas operation is translated to an explicit list
computation:

* `pd.to_numeric(..., errors='coerce').fillna(0)` becomes `Option.getD · 0`;
* `groupby` (whose default sorts the group keys and drops null keys) becomes
  "deduplicate the keys of the non-null rows, sort them, and fold each
  group";
* `Series.idxmax` becomes "first index attaining the maximum";
* `merge(..., how='left')` becomes "for each left row, one output row per
  matching right row, or a single row with null fill when nothing matches";
* `Series.rank(ascending=False, method='min')` becomes
  "1 + number of strictly greater values";
* `astype(int)` on a numeric column becomes truncation toward zero.
-/

/-- One post record, as fed to `calculate_engagement`: the numeric cells are
`some q` when the cell parses as a number and `none` otherwise (pandas `NaN`
after `to_numeric(errors='coerce')`); the date is `some d` when parseable. -/
structure Row where
  page : String
  date : Option Int
  likes : Option ℚ
  comments : Option ℚ
  shares : Option ℚ
deriving DecidableEq

/-- `pd.to_numeric(col, errors='coerce').fillna(0)`: an unparseable cell is
coerced to `0`. -/
def toNumericFill0 (v : Option ℚ) : ℚ := v.getD 0

/-- A row after `calculate_engagement` ran: the three numeric columns were
overwritten with their coerced values and an `engagement` column was added. -/
structure ScoredRow extends Row where
  engagement : ℚ
deriving DecidableEq

/-- `calculate_engagement` (analytics.py lines 24-38): copies the frame,
coerces likes/comments/shares, and adds
`engagement = 1*likes + 2*comments + 3*shares`. -/
def calculate_engagement (rows : List Row) : List ScoredRow :=
  rows.map fun r =>
    { page := r.page
      date := r.date
      likes := some (toNumericFill0 r.likes)
      comments := some (toNumericFill0 r.comments)
      shares := some (toNumericFill0 r.shares)
      engagement :=
        1 * toNumericFill0 r.likes + 2 * toNumericFill0 r.comments +
          3 * toNumericFill0 r.shares }

/-- `calculate_percentage_change` (analytics.py lines 129-144); the previous
value is `Option ℚ` because the caller can feed it a `NaN` coming from an
unmatched left join, which `pd.isna` detects. -/
def calculate_percentage_change (current_value : ℚ) (previous_value : Option ℚ) : ℚ :=
  match previous_value with
  | none => 0
  | some p => if p = 0 then 0 else ((current_value - p) / p) * 100

/-- C1: for every input row, `calculate_engagement` produces
`engagement = 1*likes + 2*comments + 3*shares` with unparseable values
treated as 0; the operation is total (never raises), preserves row order
(the i-th output row is computed from the i-th input row), and returns a new
list, leaving the caller's rows untouched. -/
theorem C1_calculate_engagement (rows : List Row) :
    (calculate_engagement rows).length = rows.length ∧
    ∀ (i : ℕ) (r : Row), rows[i]? = some r →
      (calculate_engagement rows)[i]? = some
        { page := r.page
          date := r.date
          likes := some (r.likes.getD 0)
          comments := some (r.comments.getD 0)
          shares := some (r.shares.getD 0)
          engagement :=
            1 * r.likes.getD 0 + 2 * r.comments.getD 0 + 3 * r.shares.getD 0 } := by
  constructor
  · simp [calculate_engagement]
  · intro i r hr
    simp [calculate_engagement, List.getElem?_map, hr, toNumericFill0]

/-- Witness for C1 at a concrete row with an unparseable likes cell. -/
theorem C1_witness :
    (calculate_engagement [⟨"a", some 1, none, some 2, some 3⟩])[0]? = some
      { page := "a", date := some 1, likes := some 0, comments := some 2,
        shares := some 3, engagement := 1 * 0 + 2 * 2 + 3 * 3 } :=
  (C1_calculate_engagement [⟨"a", some 1, none, some 2, some 3⟩]).2 0
    ⟨"a", some 1, none, some 2, some 3⟩ rfl

/-- C2: `calculate_percentage_change` returns `((current - previous) / previous) * 100`
when the previous value is defined and nonzero, and `0` when it is zero or
undefined; in particular `calc 100 0 = 0`, `calc 0 0 = 0`,
`calc 150 100 = 50`, `calc 50 100 = -50`. -/
theorem C2_calculate_percentage_change :
    (∀ c : ℚ, calculate_percentage_change c none = 0) ∧
    (∀ c : ℚ, calculate_percentage_change c (some 0) = 0) ∧
    (∀ (c p : ℚ), p ≠ 0 →
      calculate_percentage_change c (some p) = ((c - p) / p) * 100) ∧
    calculate_percentage_change 100 (some 0) = 0 ∧
    calculate_percentage_change 0 (some 0) = 0 ∧
    calculate_percentage_change 150 (some 100) = 50 ∧
    calculate_percentage_change 50 (some 100) = -50 := by
  refine ⟨fun c => rfl, fun c => by simp [calculate_percentage_change],
    fun c p hp => by simp [calculate_percentage_change, hp], ?_, ?_, ?_, ?_⟩
  · simp [calculate_percentage_change]
  · simp [calculate_percentage_change]
  · rw [calculate_percentage_change]
    norm_num
  · rw [calculate_percentage_change]
    norm_num

/-- Witness for C2's nonzero-previous branch at `current = 150`, `previous = 100`. -/
theorem C2_witness :
    calculate_percentage_change 150 (some 100) = ((150 - 100) / 100) * 100 :=
  C2_calculate_percentage_change.2.2.1 150 100 (by with_unfolding_all decide)

/-- The `(page, date)` grouping key ordering used by `groupby([page, date], sort=True)`:
lexicographic on page then date. -/
def keyLe (a b : String × Int) : Prop := a.1 < b.1 ∨ (a.1 = b.1 ∧ a.2 ≤ b.2)

instance keyLe.decRel : DecidableRel keyLe := fun a b => by
  unfold keyLe; infer_instance

instance keyLe.total : IsTotal (String × Int) keyLe where
  total a b := by
    rcases lt_trichotomy a.1 b.1 with h | h | h
    · exact Or.inl (Or.inl h)
    · rcases le_total a.2 b.2 with h2 | h2
      · exact Or.inl (Or.inr ⟨h, h2⟩)
      · exact Or.inr (Or.inr ⟨h.symm, h2⟩)
    · exact Or.inr (Or.inl h)

instance keyLe.trans : IsTrans (String × Int) keyLe where
  trans a b c hab hbc := by
    rcases hab with h1 | ⟨h1, h1'⟩ <;> rcases hbc with h2 | ⟨h2, h2'⟩
    · exact Or.inl (h1.trans h2)
    · exact Or.inl (h2 ▸ h1)
    · exact Or.inl (h1 ▸ h2)
    · exact Or.inr ⟨h1.trans h2, h1'.trans h2'⟩

instance keyLe.antisymm : IsAntisymm (String × Int) keyLe where
  antisymm a b hab hba := by
    rcases hab with h1 | ⟨h1, h1'⟩ <;> rcases hba with h2 | ⟨h2, h2'⟩
    · exact absurd (h1.trans h2) (lt_irrefl _)
    · exact absurd h1 (h2 ▸ lt_irrefl _)
    · exact absurd h2 (h1 ▸ lt_irrefl _)
    · exact Prod.ext h1 (le_antisymm h1' h2')

/-- One output row of `aggregate_by_day`: a `(page, date)` group with its
summed engagement and its post count. -/
structure DailyRecord where
  page : String
  date : Int
  total_engagement : ℚ
  post_count : ℕ
deriving DecidableEq

/-- The grouping key and engagement contributed by one scored row, or `none`
when its date is unparseable (pandas `groupby` drops null keys). -/
def rowKey (r : ScoredRow) : Option ((String × Int) × ℚ) :=
  r.date.map fun d => ((r.page, d), r.engagement)

/-- `aggregate_by_day` (analytics.py lines 41-69): truncate timestamps to
dates, group by `(page, date)` — pandas sorts the group keys and drops rows
whose key contains a null — and aggregate engagement by sum and the date
column by count. -/
def aggregate_by_day (rows : List ScoredRow) : List DailyRecord :=
  let keyed := rows.filterMap rowKey
  let keys := ((keyed.map Prod.fst).dedup).insertionSort keyLe
  keys.map fun k =>
    { page := k.1
      date := k.2
      total_engagement := ((keyed.filter fun p => p.1 = k).map Prod.snd).sum
      post_count := (keyed.filter fun p => p.1 = k).length }

/-- Counterexample to C7: a nonempty input whose single row has an
unparseable date produces an *empty* aggregation — the row is dropped by the
grouping, not retained under a shared null key. -/
theorem C7_counterexample :
    aggregate_by_day [⟨⟨"a", none, some 1, some 1, some 1⟩, 6⟩] = [] ∧
    ([⟨⟨"a", none, some 1, some 1, some 1⟩, 6⟩] : List ScoredRow) ≠ [] := by
  constructor
  · with_unfolding_all rfl
  · intro h; cases h

/-- C7 amended: rows whose date cannot be parsed are silently *dropped* by
`aggregate_by_day` (pandas `groupby` excludes null group keys by default):
the aggregation of any input equals the aggregation of its parseable-date
rows alone, and the operation is total (never raises). -/
theorem C7_amended_unparseable_dates_dropped (rows : List ScoredRow) :
    aggregate_by_day rows =
      aggregate_by_day (rows.filter fun r => r.date.isSome) := by
  have hkeyed : rows.filterMap rowKey =
      (rows.filter fun r => r.date.isSome).filterMap rowKey := by
    induction rows with
    | nil => rfl
    | cons r rs ih =>
      rcases hr : r.date with _ | d
      · have hk : rowKey r = none := by simp [rowKey, hr]
        simp [List.filter_cons, List.filterMap_cons, hk, hr, ih]
      · have hk : rowKey r = some ((r.page, d), r.engagement) := by
          simp [rowKey, hr]
        simp [List.filter_cons, List.filterMap_cons, hk, hr, ih]
  simp only [aggregate_by_day]
  rw [hkeyed]

/-- Witness for C7's amended statement at a mixed concrete input. -/
theorem C7_amended_witness :
    aggregate_by_day
        [⟨⟨"a", none, some 1, some 1, some 1⟩, 6⟩, ⟨⟨"b", some 3, none, none, none⟩, 0⟩] =
      aggregate_by_day
        ([⟨⟨"a", none, some 1, some 1, some 1⟩, 6⟩, ⟨⟨"b", some 3, none, none, none⟩, 0⟩].filter
          fun r => r.date.isSome) :=
  C7_amended_unparseable_dates_dropped
    [⟨⟨"a", none, some 1, some 1, some 1⟩, 6⟩, ⟨⟨"b", some 3, none, none, none⟩, 0⟩]

/-- `Series.idxmax`: the first pair (in scan order) whose second component
attains the maximum, `none` on an empty series. A strictly greater value
displaces the current best, so ties keep the earliest occurrence. -/
def firstMax {α : Type} : List (α × ℚ) → Option (α × ℚ)
  | [] => none
  | p :: ps =>
    match firstMax ps with
    | none => some p
    | some q => if q.2 > p.2 then some q else some p

theorem firstMax_eq_none {α : Type} {l : List (α × ℚ)} :
    firstMax l = none ↔ l = [] := by
  cases l with
  | nil => simp [firstMax]
  | cons p ps =>
    simp only [firstMax]
    cases h : firstMax ps with
    | none => simp
    | some q =>
      by_cases hq : q.2 > p.2 <;> simp [hq]

theorem firstMax_mem {α : Type} {l : List (α × ℚ)} {q : α × ℚ}
    (h : firstMax l = some q) : q ∈ l := by
  induction l generalizing q with
  | nil => cases h
  | cons p ps ih =>
    cases hps : firstMax ps with
    | none =>
      simp only [firstMax, hps, Option.some.injEq] at h
      exact h ▸ List.mem_cons_self _ _
    | some q0 =>
      simp only [firstMax, hps] at h
      by_cases hq : q0.2 > p.2
      · rw [if_pos hq, Option.some.injEq] at h
        subst h
        exact List.mem_cons_of_mem _ (ih hps)
      · rw [if_neg hq, Option.some.injEq] at h
        exact h ▸ List.mem_cons_self _ _

theorem firstMax_le {α : Type} {l : List (α × ℚ)} {q : α × ℚ}
    (h : firstMax l = some q) : ∀ p ∈ l, p.2 ≤ q.2 := by
  induction l generalizing q with
  | nil => cases h
  | cons p ps ih =>
    cases hps : firstMax ps with
    | none =>
      simp only [firstMax, hps, Option.some.injEq] at h
      subst h
      intro x hx
      rcases List.mem_cons.mp hx with hx | hx
      · exact hx ▸ le_refl _
      · rw [firstMax_eq_none.mp hps] at hx; cases hx
    | some q0 =>
      simp only [firstMax, hps] at h
      by_cases hq : q0.2 > p.2
      · rw [if_pos hq, Option.some.injEq] at h
        subst h
        intro x hx
        rcases List.mem_cons.mp hx with hx | hx
        · exact hx ▸ le_of_lt hq
        · exact ih hps x hx
      · rw [if_neg hq, Option.some.injEq] at h
        subst h
        intro x hx
        rcases List.mem_cons.mp hx with hx | hx
        · exact hx ▸ le_refl _
        · exact le_trans (ih hps x hx) (le_of_not_lt hq)

theorem firstMax_first {α : Type} {l : List (α × ℚ)} {q : α × ℚ}
    (h : firstMax l = some q) :
    ∃ l1 l2, l = l1 ++ q :: l2 ∧ ∀ p ∈ l1, p.2 < q.2 := by
  induction l generalizing q with
  | nil => cases h
  | cons p ps ih =>
    cases hps : firstMax ps with
    | none =>
      simp only [firstMax, hps, Option.some.injEq] at h
      subst h
      exact ⟨[], ps, rfl, by simp⟩
    | some q0 =>
      simp only [firstMax, hps] at h
      by_cases hq : q0.2 > p.2
      · rw [if_pos hq, Option.some.injEq] at h
        subst h
        obtain ⟨l1, l2, hsplit, hlt⟩ := ih hps
        refine ⟨p :: l1, l2, by rw [hsplit]; rfl, ?_⟩
        intro x hx
        rcases List.mem_cons.mp hx with hx | hx
        · exact hx ▸ hq
        · exact hlt x hx
      · rw [if_neg hq, Option.some.injEq] at h
        subst h
        exact ⟨[], ps, rfl, by simp⟩

/-- Among all pairs tied with the maximum, the one `firstMax` returns comes
first: any other tied pair is related to it by any relation holding
pairwise along the list. -/
theorem firstMax_tie_rel {α : Type} {l : List (α × ℚ)} {q : α × ℚ}
    {R : α × ℚ → α × ℚ → Prop} (hR : l.Pairwise R) (h : firstMax l = some q) :
    ∀ p ∈ l, p.2 = q.2 → p = q ∨ R q p := by
  obtain ⟨l1, l2, hsplit, hlt⟩ := firstMax_first h
  subst hsplit
  intro p hp htie
  rcases List.mem_append.mp hp with hp | hp
  · exact absurd (htie ▸ hlt p hp) (lt_irrefl _)
  · rcases List.mem_cons.mp hp with hp | hp
    · exact Or.inl hp
    · have := (List.pairwise_append.mp hR).2.1
      exact Or.inr ((List.pairwise_cons.mp this).1 p hp)

/-- Position-indexed rows of one date's group, in frame order
(`df.groupby('date')` restricted to one key). -/
def dateGroup (daily : List DailyRecord) (d : Int) : List (ℕ × DailyRecord) :=
  daily.enum.filter fun p => p.2.date = d

/-- `df.groupby('date')['total_engagement'].idxmax()` at one date key: the
index of the first row attaining the date's maximal engagement. -/
def idx_max (daily : List DailyRecord) (d : Int) : Option ℕ :=
  (firstMax ((dateGroup daily d).map fun p => (p.1, p.2.total_engagement))).map Prod.fst

/-- A daily record with its `day_won` flag (the code stores 0/1 integers). -/
structure WinnerRecord extends DailyRecord where
  day_won : ℕ
deriving DecidableEq

/-- `identify_daily_winners` (analytics.py lines 72-95): initialize
`day_won = 0` everywhere, then set `day_won = 1` exactly at the per-date
`idxmax` positions. -/
def identify_daily_winners (daily : List DailyRecord) : List WinnerRecord :=
  daily.enum.map fun p =>
    { toDailyRecord := p.2
      day_won := if idx_max daily p.2.date = some p.1 then 1 else 0 }

/-- One row of the overall per-page aggregation. -/
structure PageRecord where
  page : String
  total_engagement : ℚ
  total_posts : ℕ
  days_won : ℕ
deriving DecidableEq

/-- `aggregate_overall` (analytics.py lines 98-126): group the scored rows
by page (pandas sorts the keys), sum engagement and count posts, then
left-join the per-page `day_won` sums, filling pages without wins with 0. -/
def aggregate_overall (rows : List ScoredRow) (winners : List WinnerRecord) :
    List PageRecord :=
  let pages := ((rows.map fun r => r.page).dedup).insertionSort (· ≤ ·)
  pages.map fun p =>
    { page := p
      total_engagement := ((rows.filter fun r => r.page = p).map fun r => r.engagement).sum
      total_posts := (rows.filter fun r => r.page = p).length
      days_won := ((winners.filter fun w => w.page = p).map fun w => w.day_won).sum }

theorem sum_map_ite_one {α : Type} (l : List α) (p : α → Bool) :
    (l.map fun a => if p a then (1 : ℕ) else 0).sum = l.countP p := by
  induction l with
  | nil => rfl
  | cons a l ih =>
    by_cases h : p a <;>
      simp [List.countP_cons, h, ih, Nat.add_comm]

theorem sum_map_const_one {α : Type} (l : List α) (f : α → ℕ)
    (h : ∀ a ∈ l, f a = 1) : (l.map f).sum = l.length := by
  induction l with
  | nil => rfl
  | cons a l ih =>
    simp only [List.map_cons, List.sum_cons, List.length_cons,
      h a (List.mem_cons_self a l)]
    rw [ih fun a ha => h a (List.mem_cons_of_mem _ ha), Nat.add_comm]

theorem sum_map_indicator {κ M : Type} [DecidableEq κ] [AddCommMonoid M]
    (keys : List κ) (k0 : κ) (v : M) (hnd : keys.Nodup) (hk : k0 ∈ keys) :
    (keys.map fun k => if k0 = k then v else 0).sum = v := by
  induction keys with
  | nil => cases hk
  | cons k ks ih =>
    rcases List.nodup_cons.mp hnd with ⟨hk_not, hks⟩
    simp only [List.map_cons, List.sum_cons]
    rcases List.mem_cons.mp hk with h | h
    · subst h
      rw [if_pos rfl]
      have hz : ∀ x ∈ ks.map fun k => if k0 = k then v else 0, x = 0 := by
        intro x hx
        rcases List.mem_map.mp hx with ⟨k', hk', hxeq⟩
        rw [← hxeq, if_neg fun he => hk_not (by rw [he]; exact hk')]
      rw [List.sum_eq_zero hz, add_zero]
    · rw [if_neg fun he => hk_not (by rw [← he]; exact h), ih hks h, zero_add]

theorem sum_partition {κ γ M : Type} [DecidableEq κ] [AddCommMonoid M]
    (keys : List κ) (l : List γ) (key : γ → κ) (f : γ → M)
    (hnd : keys.Nodup) (hcov : ∀ x ∈ l, key x ∈ keys) :
    (keys.map fun k => ((l.filter fun x => key x = k).map f).sum).sum
      = (l.map f).sum := by
  induction l with
  | nil => simp
  | cons x l ih =>
    have hstep : ∀ k : κ,
        (((x :: l).filter fun y => key y = k).map f).sum
          = (if key x = k then f x else 0)
            + ((l.filter fun y => key y = k).map f).sum := by
      intro k
      by_cases h : key x = k <;> simp [List.filter_cons, h]
    have hrw : (keys.map fun k => (((x :: l).filter fun y => key y = k).map f).sum)
        = keys.map fun k =>
            (if key x = k then f x else 0) + ((l.filter fun y => key y = k).map f).sum :=
      List.map_congr_left fun k _ => hstep k
    rw [hrw, List.sum_map_add,
      sum_map_indicator keys (key x) (f x) hnd (hcov x (List.mem_cons_self x l)),
      ih fun y hy => hcov y (List.mem_cons_of_mem _ hy)]
    simp

theorem countP_partition {κ γ : Type} [DecidableEq κ]
    (keys : List κ) (l : List γ) (key : γ → κ) (P : γ → Bool)
    (hnd : keys.Nodup) (hcov : ∀ x ∈ l, key x ∈ keys) :
    (keys.map fun k => l.countP fun x => decide (key x = k) && P x).sum
      = l.countP P := by
  have hinner : ∀ k : κ,
      (l.countP fun x => decide (key x = k) && P x)
        = ((l.filter fun x => key x = k).map fun x => if P x then (1 : ℕ) else 0).sum := by
    intro k
    rw [sum_map_ite_one, List.countP_filter]
    exact List.countP_congr fun x _ => by
      by_cases h1 : P x <;> by_cases h2 : key x = k <;> simp [h1, h2]
  calc (keys.map fun k => l.countP fun x => decide (key x = k) && P x).sum
      = (keys.map fun k =>
          ((l.filter fun x => key x = k).map fun x => if P x then (1 : ℕ) else 0).sum).sum := by
        exact congrArg List.sum (List.map_congr_left fun k _ => hinner k)
    _ = (l.map fun x => if P x then (1 : ℕ) else 0).sum :=
        sum_partition keys l key _ hnd hcov
    _ = l.countP P := sum_map_ite_one l P

theorem enum_pairwise_fst_lt {α : Type} (l : List α) :
    l.enum.Pairwise fun a b => a.1 < b.1 := by
  have h := List.pairwise_lt_range l.length
  rw [← List.enum_map_fst l] at h
  exact List.pairwise_map.mp h

theorem enum_nodup {α : Type} (l : List α) : l.enum.Nodup :=
  List.Nodup.of_map Prod.fst
    (by rw [List.enum_map_fst]; exact List.nodup_range _)

theorem mem_enum_self {α : Type} (l : List α) (i : ℕ) (h : i < l.length) :
    (i, l[i]) ∈ l.enum := by
  have h' : i < l.enum.length := by rw [List.enum_length]; exact h
  have hg := List.getElem_enum l i h'
  rw [← hg]
  exact List.getElem_mem h'

theorem idx_max_spec {daily : List DailyRecord} {d : Int} {i : ℕ}
    (h : idx_max daily d = some i) :
    ∃ hi : i < daily.length, daily[i].date = d ∧
      ∀ p ∈ dateGroup daily d,
        p.2.total_engagement ≤ daily[i].total_engagement := by
  simp only [idx_max, Option.map_eq_some'] at h
  obtain ⟨q, hq, hqi⟩ := h
  have hmem := firstMax_mem hq
  rcases List.mem_map.mp hmem with ⟨pr, hprG, hpr_eq⟩
  obtain ⟨j, rec⟩ := pr
  have hpr := hprG
  simp only [dateGroup, List.mem_filter, decide_eq_true_eq] at hpr
  obtain ⟨hpr_enum, hpr_date⟩ := hpr
  obtain ⟨hlt, heq⟩ := List.mem_enum hpr_enum
  have hji : j = i := by
    have : (j, rec.total_engagement).1 = q.1 := by rw [hpr_eq]
    simpa [hqi] using this
  subst hji
  refine ⟨hlt, by rw [← heq]; exact hpr_date, ?_⟩
  intro p hp
  have hple := firstMax_le hq (p.1, p.2.total_engagement) (List.mem_map_of_mem _ hp)
  have hq2 : q.2 = rec.total_engagement := by rw [← hpr_eq]
  rw [← heq]
  calc p.2.total_engagement ≤ q.2 := hple
    _ = rec.total_engagement := hq2

theorem idx_max_isSome {daily : List DailyRecord} {d : Int}
    (h : ∃ r ∈ daily, r.date = d) : ∃ i, idx_max daily d = some i := by
  obtain ⟨r, hr, hrd⟩ := h
  obtain ⟨j, hj, hjr⟩ := List.getElem_of_mem hr
  have hmem : (j, r) ∈ dateGroup daily d := by
    simp only [dateGroup, List.mem_filter, decide_eq_true_eq]
    exact ⟨by rw [← hjr]; exact mem_enum_self daily j hj, hrd⟩
  have hmm : (j, r.total_engagement) ∈
      (dateGroup daily d).map fun p => (p.1, p.2.total_engagement) :=
    List.mem_map_of_mem _ hmem
  cases hfm : firstMax ((dateGroup daily d).map fun p => (p.1, p.2.total_engagement)) with
  | none =>
    rw [firstMax_eq_none] at hfm
    rw [hfm] at hmm
    cases hmm
  | some q => exact ⟨q.1, by simp [idx_max, hfm]⟩

theorem countP_eq_one_of_nodup {α : Type} [DecidableEq α] {l : List α} {x : α}
    (hnd : l.Nodup) (hx : x ∈ l) :
    l.countP (fun y => decide (y = x)) = 1 := by
  induction l with
  | nil => cases hx
  | cons a l ih =>
    rcases List.nodup_cons.mp hnd with ⟨ha, hl⟩
    rcases List.mem_cons.mp hx with h | h
    · subst h
      rw [List.countP_cons, if_pos (by simp)]
      have hz : l.countP (fun y => decide (y = x)) = 0 := by
        rw [List.countP_eq_zero]
        intro y hy
        simp only [decide_eq_true_eq]
        exact fun he => ha (he ▸ hy)
      rw [hz]
    · rw [List.countP_cons,
        if_neg (by simp only [decide_eq_true_eq]; exact fun he => ha (he ▸ h)),
        ih hl h]

theorem winners_countP_eq_one {daily : List DailyRecord} {d : Int} {i : ℕ}
    (h : idx_max daily d = some i) :
    daily.enum.countP
      (fun p => decide (p.2.date = d) && decide (idx_max daily p.2.date = some p.1)) = 1 := by
  obtain ⟨hi, hdate, _⟩ := idx_max_spec h
  have hx0 : (i, daily[i]) ∈ daily.enum := mem_enum_self daily i hi
  have hcongr : ∀ p ∈ daily.enum,
      (decide (p.2.date = d) && decide (idx_max daily p.2.date = some p.1)) = true
        ↔ (decide (p = (i, daily[i]))) = true := by
    intro p hp
    obtain ⟨j, rec⟩ := p
    obtain ⟨hj, hrec⟩ := List.mem_enum hp
    constructor
    · intro hpt
      simp only [Bool.and_eq_true, decide_eq_true_eq] at hpt
      obtain ⟨hpd, hpw⟩ := hpt
      rw [hpd, h] at hpw
      have hji : j = i := (Option.some.inj hpw).symm
      subst hji
      simp [hrec]
    · intro hpe
      have hpe' : (j, rec) = (i, daily[i]) := by simpa using hpe
      have hj_eq : j = i := congrArg Prod.fst hpe'
      have hrec_eq : rec = daily[i] := congrArg Prod.snd hpe'
      simp only [Bool.and_eq_true, decide_eq_true_eq]
      exact ⟨by rw [hrec_eq]; exact hdate,
        by rw [hrec_eq, hdate, hj_eq]; exact h⟩
  rw [List.countP_congr hcongr]
  exact countP_eq_one_of_nodup (enum_nodup daily) hx0

theorem winner_filter_length {daily : List DailyRecord} {d : Int}
    (hd : ∃ r ∈ daily, r.date = d) :
    ((identify_daily_winners daily).filter
      fun w => w.date = d ∧ w.day_won = 1).length = 1 := by
  obtain ⟨i, hi⟩ := idx_max_isSome hd
  simp only [identify_daily_winners]
  rw [List.filter_map, List.length_map, ← List.countP_eq_length_filter]
  rw [List.countP_congr (q := fun p : ℕ × DailyRecord =>
    decide (p.2.date = d) && decide (idx_max daily p.2.date = some p.1)) ?_]
  · exact winners_countP_eq_one hi
  · intro p hp
    by_cases h1 : p.2.date = d <;>
      by_cases h2 : idx_max daily p.2.date = some p.1 <;>
        simp [Function.comp, h1, h2]

theorem winners_day_won_sum (daily : List DailyRecord) :
    ((identify_daily_winners daily).map fun w => w.day_won).sum
      = ((daily.map fun r => r.date).dedup).length := by
  simp only [identify_daily_winners, List.map_map]
  have h1 : ((fun w : WinnerRecord => w.day_won) ∘ fun p : ℕ × DailyRecord =>
      ({ toDailyRecord := p.2,
         day_won := if idx_max daily p.2.date = some p.1 then 1 else 0 } : WinnerRecord))
      = fun p : ℕ × DailyRecord =>
          if decide (idx_max daily p.2.date = some p.1) then (1 : ℕ) else 0 := by
    funext p
    by_cases h : idx_max daily p.2.date = some p.1 <;> simp [h]
  rw [h1, sum_map_ite_one]
  have hnd : ((daily.map fun r => r.date).dedup).Nodup := List.nodup_dedup _
  have hcov : ∀ p ∈ daily.enum, p.2.date ∈ (daily.map fun r => r.date).dedup := by
    intro p hp
    rw [List.mem_dedup]
    have hsnd : p.2 ∈ daily := by
      have he := List.enum_map_snd daily
      rw [← he]
      exact List.mem_map_of_mem _ hp
    exact List.mem_map_of_mem _ hsnd
  rw [← countP_partition ((daily.map fun r => r.date).dedup) daily.enum
    (fun p => p.2.date) (fun p => decide (idx_max daily p.2.date = some p.1)) hnd hcov]
  apply sum_map_const_one
  intro d hdD
  have hpres : ∃ r ∈ daily, r.date = d := by
    rw [List.mem_dedup] at hdD
    rcases List.mem_map.mp hdD with ⟨r, hr, hrd⟩
    exact ⟨r, hr, hrd⟩
  obtain ⟨i, hi⟩ := idx_max_isSome hpres
  exact winners_countP_eq_one hi

theorem aggregate_by_day_perm {rows rows' : List ScoredRow} (h : rows.Perm rows') :
    aggregate_by_day rows = aggregate_by_day rows' := by
  have hkeyed : (rows.filterMap rowKey).Perm (rows'.filterMap rowKey) :=
    h.filterMap _
  have hkeys : (((rows.filterMap rowKey).map Prod.fst).dedup).insertionSort keyLe
      = (((rows'.filterMap rowKey).map Prod.fst).dedup).insertionSort keyLe := by
    exact @List.eq_of_perm_of_sorted _ keyLe _ _ _
      (((List.perm_insertionSort keyLe _).trans
        ((hkeyed.map _).dedup)).trans (List.perm_insertionSort keyLe _).symm)
      (List.sorted_insertionSort keyLe _) (List.sorted_insertionSort keyLe _)
  simp only [aggregate_by_day]
  rw [hkeys]
  apply List.map_congr_left
  intro k _
  have hfil : ((rows.filterMap rowKey).filter fun p => p.1 = k).Perm
      ((rows'.filterMap rowKey).filter fun p => p.1 = k) := hkeyed.filter _
  simp only [DailyRecord.mk.injEq, true_and]
  exact ⟨(hfil.map Prod.snd).sum_eq, hfil.length_eq⟩

theorem abd_pairwise (rows : List ScoredRow) :
    (aggregate_by_day rows).Pairwise fun a b => a.date = b.date → a.page < b.page := by
  simp only [aggregate_by_day]
  rw [List.pairwise_map]
  have hsorted : List.Sorted keyLe
      ((((rows.filterMap rowKey).map Prod.fst).dedup).insertionSort keyLe) :=
    List.sorted_insertionSort keyLe _
  have hnd : ((((rows.filterMap rowKey).map Prod.fst).dedup).insertionSort keyLe).Nodup :=
    (List.perm_insertionSort keyLe _).nodup_iff.mpr (List.nodup_dedup _)
  have hcomb := List.Pairwise.and hsorted hnd
  apply hcomb.imp
  intro a b hab
  obtain ⟨hle, hne⟩ := hab
  intro hdate
  rcases hle with h1 | ⟨h1, _⟩
  · exact h1
  · exact absurd (Prod.ext h1 hdate) hne

theorem abd_date_present {rows : List ScoredRow} {d : Int}
    (h : ∃ r ∈ rows, r.date = some d) :
    ∃ rec ∈ aggregate_by_day rows, rec.date = d := by
  obtain ⟨r, hr, hrd⟩ := h
  have hkey : ((r.page, d), r.engagement) ∈ rows.filterMap rowKey := by
    rw [List.mem_filterMap]
    exact ⟨r, hr, by simp [rowKey, hrd]⟩
  have hfst : (r.page, d) ∈
      (((rows.filterMap rowKey).map Prod.fst).dedup).insertionSort keyLe := by
    rw [(List.perm_insertionSort keyLe _).mem_iff, List.mem_dedup]
    exact List.mem_map_of_mem _ hkey
  exact ⟨_, by simp only [aggregate_by_day]; exact List.mem_map_of_mem _ hfst, rfl⟩

theorem abd_page_mem {rows : List ScoredRow} {rec : DailyRecord}
    (h : rec ∈ aggregate_by_day rows) : rec.page ∈ rows.map fun r => r.page := by
  simp only [aggregate_by_day] at h
  rcases List.mem_map.mp h with ⟨k, hk, hkeq⟩
  rw [(List.perm_insertionSort keyLe _).mem_iff, List.mem_dedup] at hk
  rcases List.mem_map.mp hk with ⟨pr, hpr, hpreq⟩
  rcases List.mem_filterMap.mp hpr with ⟨r, hr, hrk⟩
  have hpage : r.page = rec.page := by
    rcases hd : r.date with _ | d0
    · rw [rowKey, hd] at hrk; cases hrk
    · rw [rowKey, hd] at hrk
      simp only [Option.map_some', Option.some.injEq] at hrk
      have h1 : pr.1.1 = r.page := by rw [← hrk]
      have h2 : k.1 = r.page := by rw [← hpreq]; exact h1
      rw [← hkeq, ← h2]
  exact hpage ▸ List.mem_map_of_mem _ hr

theorem abd_dates_dedup_length (rows : List ScoredRow) :
    (((aggregate_by_day rows).map fun rec => rec.date).dedup).length
      = ((rows.filterMap fun r => r.date).dedup).length := by
  have hmap : (aggregate_by_day rows).map (fun rec => rec.date)
      = ((((rows.filterMap rowKey).map Prod.fst).dedup).insertionSort keyLe).map
          fun k => k.2 := by
    simp only [aggregate_by_day, List.map_map]
    rfl
  have hperm : ((((rows.filterMap rowKey).map Prod.fst).dedup).insertionSort keyLe).map
      (fun k : String × Int => k.2)
      |>.Perm ((((rows.filterMap rowKey).map Prod.fst).dedup).map fun k => k.2) :=
    (List.perm_insertionSort keyLe _).map _
  have hsnd : ((rows.filterMap rowKey).map Prod.fst).map (fun k : String × Int => k.2)
      = rows.filterMap fun r => r.date := by
    rw [List.map_map, List.map_filterMap]
    apply List.filterMap_congr
    intro r _
    rcases hd : r.date with _ | d0 <;> simp [rowKey, hd]
  have htf : (((((rows.filterMap rowKey).map Prod.fst).dedup).map
      fun k : String × Int => k.2).toFinset)
      = ((rows.filterMap fun r => r.date).toFinset) := by
    rw [← hsnd]
    apply List.toFinset.ext
    intro x
    constructor
    · intro hx
      rcases List.mem_map.mp hx with ⟨k, hk, hkeq⟩
      exact hkeq ▸ List.mem_map_of_mem _ (List.mem_dedup.mp hk)
    · intro hx
      rcases List.mem_map.mp hx with ⟨k, hk, hkeq⟩
      exact hkeq ▸ List.mem_map_of_mem _ (List.mem_dedup.mpr hk)
  rw [hmap, (hperm.dedup).length_eq, ← List.card_toFinset, htf, List.card_toFinset]

theorem winners_mem_iff {daily : List DailyRecord} {w : WinnerRecord} :
    w ∈ identify_daily_winners daily ↔
      ∃ j, ∃ hj : j < daily.length,
        w = { toDailyRecord := daily[j],
              day_won := if idx_max daily daily[j].date = some j then 1 else 0 } := by
  simp only [identify_daily_winners]
  constructor
  · intro hw
    rcases List.mem_map.mp hw with ⟨p, hp, hpeq⟩
    obtain ⟨j, rec⟩ := p
    obtain ⟨hj, hrec⟩ := List.mem_enum hp
    exact ⟨j, hj, by rw [← hpeq]; simp only [hrec]⟩
  · rintro ⟨j, hj, rfl⟩
    exact List.mem_map_of_mem _ (mem_enum_self daily j hj)

theorem idx_max_min_page {daily : List DailyRecord} {d : Int} {i : ℕ}
    (hPW : daily.Pairwise fun a b => a.date = b.date → a.page < b.page)
    (h : idx_max daily d = some i) :
    ∃ hi : i < daily.length,
      ∀ (j : ℕ) (hj : j < daily.length), daily[j].date = d →
        daily[j].total_engagement = daily[i].total_engagement →
        daily[i].page ≤ daily[j].page := by
  obtain ⟨hi, hdate, _⟩ := idx_max_spec h
  refine ⟨hi, ?_⟩
  intro j hj hjd htie
  have hgPW : (dateGroup daily d).Pairwise fun a b => a.1 < b.1 :=
    List.Pairwise.sublist (List.filter_sublist _) (enum_pairwise_fst_lt daily)
  have hmPW : (((dateGroup daily d).map fun p => (p.1, p.2.total_engagement)).Pairwise
      fun a b : ℕ × ℚ => a.1 < b.1) := List.pairwise_map.mpr hgPW
  simp only [idx_max, Option.map_eq_some'] at h
  obtain ⟨q, hq, hq1⟩ := h
  have hq2 : q.2 = daily[i].total_engagement := by
    rcases List.mem_map.mp (firstMax_mem hq) with ⟨pr, hpr, hpr_eq⟩
    obtain ⟨j0, rec⟩ := pr
    simp only [dateGroup, List.mem_filter, decide_eq_true_eq] at hpr
    obtain ⟨hpr_enum, _⟩ := hpr
    obtain ⟨_, hrec⟩ := List.mem_enum hpr_enum
    have hj0 : j0 = i := by
      have : (j0, rec.total_engagement).1 = q.1 := by rw [hpr_eq]
      simpa [hq1] using this
    subst hj0
    have : (j0, rec.total_engagement).2 = q.2 := by rw [hpr_eq]
    simp only at this
    rw [← this, hrec]
  have hjG : (j, daily[j]) ∈ dateGroup daily d := by
    simp only [dateGroup, List.mem_filter, decide_eq_true_eq]
    exact ⟨mem_enum_self daily j hj, hjd⟩
  have hjm : (j, daily[j].total_engagement) ∈
      (dateGroup daily d).map fun p => (p.1, p.2.total_engagement) :=
    List.mem_map_of_mem _ hjG
  have htie' : (j, daily[j].total_engagement).2 = q.2 := by
    simp only [hq2]
    exact htie
  rcases firstMax_tie_rel hmPW hq _ hjm htie' with heq | hlt
  · have hji : j = i := by
      have : (j, daily[j].total_engagement).1 = q.1 := by rw [heq]
      simpa [hq1] using this
    subst hji
    exact le_refl _
  · have hij : i < j := by
      have h1 : q.1 = i := hq1
      simpa [h1] using hlt
    exact le_of_lt ((List.pairwise_iff_getElem.mp hPW i j hi hj hij)
      (by rw [hdate, hjd]))

/-- C3: after daily-winner resolution, each distinct (parseable) date has
exactly one record flagged `day_won = 1`, and after overall aggregation the
`days_won` values summed over all page records equal the number of distinct
parseable dates in the current-period data. -/
theorem C3_one_winner_per_day_and_days_won_sum (rows : List ScoredRow) :
    (∀ d : Int, (∃ r ∈ rows, r.date = some d) →
      ((identify_daily_winners (aggregate_by_day rows)).filter
        fun w => w.date = d ∧ w.day_won = 1).length = 1) ∧
    ((aggregate_overall rows (identify_daily_winners (aggregate_by_day rows))).map
      fun pr => pr.days_won).sum
      = ((rows.filterMap fun r => r.date).dedup).length := by
  constructor
  · intro d hd
    exact winner_filter_length (abd_date_present hd)
  · have hov : (aggregate_overall rows
        (identify_daily_winners (aggregate_by_day rows))).map (fun pr => pr.days_won)
        = (((rows.map fun r => r.page).dedup).insertionSort (· ≤ ·)).map
            fun p => (((identify_daily_winners (aggregate_by_day rows)).filter
              fun w => w.page = p).map fun w => w.day_won).sum := by
      simp only [aggregate_overall, List.map_map]
      rfl
    rw [hov]
    have hnd : (((rows.map fun r => r.page).dedup).insertionSort (· ≤ ·)).Nodup :=
      (List.perm_insertionSort _ _).nodup_iff.mpr (List.nodup_dedup _)
    have hcov : ∀ w ∈ identify_daily_winners (aggregate_by_day rows),
        w.page ∈ ((rows.map fun r => r.page).dedup).insertionSort (· ≤ ·) := by
      intro w hw
      rw [(List.perm_insertionSort _ _).mem_iff, List.mem_dedup]
      rcases winners_mem_iff.mp hw with ⟨j, hj, hwe⟩
      rw [hwe]
      exact abd_page_mem (List.getElem_mem hj)
    calc ((((rows.map fun r => r.page).dedup).insertionSort (· ≤ ·)).map
          fun p => (((identify_daily_winners (aggregate_by_day rows)).filter
            fun w => w.page = p).map fun w => w.day_won).sum).sum
        = ((identify_daily_winners (aggregate_by_day rows)).map
            fun w => w.day_won).sum :=
          sum_partition _ _ (fun w : WinnerRecord => w.page)
            (fun w : WinnerRecord => w.day_won) hnd hcov
      _ = (((aggregate_by_day rows).map fun rec => rec.date).dedup).length :=
          winners_day_won_sum _
      _ = ((rows.filterMap fun r => r.date).dedup).length :=
          abd_dates_dedup_length rows

/-- Witness for C3's per-date uniqueness at a one-row input on date 5. -/
theorem C3_witness :
    ((identify_daily_winners
        (aggregate_by_day [⟨⟨"a", some 5, some 1, some 0, some 0⟩, 1⟩])).filter
      fun w => w.date = 5 ∧ w.day_won = 1).length = 1 :=
  (C3_one_winner_per_day_and_days_won_sum
      [⟨⟨"a", some 5, some 1, some 0, some 0⟩, 1⟩]).1 5
    ⟨⟨⟨"a", some 5, some 1, some 0, some 0⟩, 1⟩, List.mem_singleton_self _, rfl⟩

/-- C4: on every date present in the data, the resolver built from
`aggregate_by_day` (whose `groupby` sorts keys by page, then date) followed
by `identify_daily_winners` (first-index `idxmax`) marks exactly one winner;
among all records tied for the date's maximal engagement the winner is the
one with the lexicographically lowest page identifier, and the whole result
is independent of the order of the input rows. -/
theorem C4_deterministic_tiebreak (rows : List ScoredRow) (d : Int)
    (hd : ∃ r ∈ rows, r.date = some d) :
    ((identify_daily_winners (aggregate_by_day rows)).filter
      fun w => w.date = d ∧ w.day_won = 1).length = 1 ∧
    (∀ rows' : List ScoredRow, rows.Perm rows' →
      identify_daily_winners (aggregate_by_day rows')
        = identify_daily_winners (aggregate_by_day rows)) ∧
    ∃ w ∈ identify_daily_winners (aggregate_by_day rows),
      w.date = d ∧ w.day_won = 1 ∧
      (∀ v ∈ identify_daily_winners (aggregate_by_day rows),
        v.date = d → v.total_engagement ≤ w.total_engagement) ∧
      (∀ v ∈ identify_daily_winners (aggregate_by_day rows),
        v.date = d → v.total_engagement = w.total_engagement →
          w.page ≤ v.page) := by
  have hdp := abd_date_present hd
  obtain ⟨i, hi_eq⟩ := idx_max_isSome hdp
  obtain ⟨hi, hdate, hmax⟩ := idx_max_spec hi_eq
  refine ⟨winner_filter_length hdp,
    fun rows' h => (congrArg identify_daily_winners (aggregate_by_day_perm h)).symm, ?_⟩
  have hcond : idx_max (aggregate_by_day rows)
      ((aggregate_by_day rows)[i].date) = some i := by
    rw [hdate]; exact hi_eq
  have hw_mem : (⟨(aggregate_by_day rows)[i], 1⟩ : WinnerRecord)
      ∈ identify_daily_winners (aggregate_by_day rows) := by
    have h0 := winners_mem_iff.mpr ⟨i, hi, rfl⟩
    rw [if_pos hcond] at h0
    exact h0
  refine ⟨_, hw_mem, hdate, rfl, ?_, ?_⟩
  · intro v hv hvd
    rcases winners_mem_iff.mp hv with ⟨j, hj, hve⟩
    rw [hve]
    rw [hve] at hvd
    have hjG : (j, (aggregate_by_day rows)[j]) ∈ dateGroup (aggregate_by_day rows) d := by
      simp only [dateGroup, List.mem_filter, decide_eq_true_eq]
      exact ⟨mem_enum_self _ j hj, hvd⟩
    exact hmax _ hjG
  · intro v hv hvd htie
    rcases winners_mem_iff.mp hv with ⟨j, hj, hve⟩
    rw [hve]
    rw [hve] at hvd htie
    obtain ⟨_, hminp⟩ := idx_max_min_page (abd_pairwise rows) hi_eq
    exact hminp j hj hvd htie

/-- Witness for C4 at a two-page tie on date 7. -/
theorem C4_witness :
    ((identify_daily_winners
        (aggregate_by_day
          [⟨⟨"b", some 7, some 10, some 0, some 0⟩, 10⟩,
           ⟨⟨"a", some 7, some 10, some 0, some 0⟩, 10⟩])).filter
      fun w => w.date = 7 ∧ w.day_won = 1).length = 1 :=
  (C4_deterministic_tiebreak
      [⟨⟨"b", some 7, some 10, some 0, some 0⟩, 10⟩,
       ⟨⟨"a", some 7, some 10, some 0, some 0⟩, 10⟩] 7
      ⟨⟨⟨"b", some 7, some 10, some 0, some 0⟩, 10⟩,
        List.mem_cons_self _ _, rfl⟩).1

/-- `astype(int)` applied to a numeric pandas column: a C-style cast that
truncates toward zero (floor for non-negative values, ceiling for negative
ones). -/
def astypeInt (q : ℚ) : ℤ := if 0 ≤ q then ⌊q⌋ else ⌈q⌉

theorem astypeInt_zero : astypeInt ((none : Option ℚ).getD 0) = 0 := by
  simp [astypeInt]

/-- One row of the prior-period dataset; each numeric cell is `some q` when
present and parseable, `none` when it is `NaN`. -/
structure PrevRow where
  page : String
  post_count : Option ℚ
  engagement : Option ℚ
  day_won : Option ℚ
  rank : Option ℚ
deriving DecidableEq

/-- The prior-period dataset together with which of the four mapped columns
actually exist in it (`col in previous_df.columns`); an empty upload has all
four flags false. -/
structure PrevData where
  has_post_count : Bool
  has_engagement : Bool
  has_day_won : Bool
  has_rank : Bool
  rows : List PrevRow
deriving DecidableEq

/-- A current-period page record enriched with the comparison columns
produced by `add_comparison_data`. -/
structure CompRow where
  page : String
  total_engagement : ℚ
  total_posts : ℕ
  days_won : ℕ
  posts_change_pct : ℚ
  engagement_change_pct : ℚ
  last_fortnight_day_won : ℤ
  last_fortnight_rank : ℤ
deriving DecidableEq

/-- `add_comparison_data` (analytics.py lines 147-242): when either required
prior column is missing, fill the four comparison columns with zero defaults
and return; otherwise left-merge the prior rows by page (an unmatched page
gets `NaN` prior values, a page with several prior rows is duplicated once
per match), compute the two percentage changes, and carry the prior
`day_won`/`rank` through `fillna(0).astype(int)` when their columns exist. -/
def add_comparison_data (current : List PageRecord) (prev : PrevData) : List CompRow :=
  if ¬ (prev.has_post_count && prev.has_engagement) then
    current.map fun c =>
      { page := c.page
        total_engagement := c.total_engagement
        total_posts := c.total_posts
        days_won := c.days_won
        posts_change_pct := 0
        engagement_change_pct := 0
        last_fortnight_day_won := 0
        last_fortnight_rank := 0 }
  else
    current.flatMap fun c =>
      match prev.rows.filter fun m => m.page = c.page with
      | [] =>
        [{ page := c.page
           total_engagement := c.total_engagement
           total_posts := c.total_posts
           days_won := c.days_won
           posts_change_pct := calculate_percentage_change (c.total_posts : ℚ) none
           engagement_change_pct := calculate_percentage_change c.total_engagement none
           last_fortnight_day_won :=
             if prev.has_day_won then astypeInt ((none : Option ℚ).getD 0) else 0
           last_fortnight_rank :=
             if prev.has_rank then astypeInt ((none : Option ℚ).getD 0) else 0 }]
      | ms => ms.map fun m =>
        { page := c.page
          total_engagement := c.total_engagement
          total_posts := c.total_posts
          days_won := c.days_won
          posts_change_pct := calculate_percentage_change (c.total_posts : ℚ) m.post_count
          engagement_change_pct := calculate_percentage_change c.total_engagement m.engagement
          last_fortnight_day_won :=
            if prev.has_day_won then astypeInt (m.day_won.getD 0) else 0
          last_fortnight_rank :=
            if prev.has_rank then astypeInt (m.rank.getD 0) else 0 }

/-- C6: when the prior dataset lacks the prior-posts column or the
prior-engagement column (as an empty dataset does), `add_comparison_data`
returns every current row unchanged except for the four comparison fields,
which are zero-filled; nothing is dropped and nothing raises. -/
theorem C6_missing_prior_columns_defaults (current : List PageRecord) (prev : PrevData)
    (h : prev.has_post_count = false ∨ prev.has_engagement = false) :
    add_comparison_data current prev = current.map fun c =>
      { page := c.page
        total_engagement := c.total_engagement
        total_posts := c.total_posts
        days_won := c.days_won
        posts_change_pct := 0
        engagement_change_pct := 0
        last_fortnight_day_won := 0
        last_fortnight_rank := 0 } := by
  have hcond : ¬ (prev.has_post_count && prev.has_engagement) = true := by
    rcases h with h | h <;> simp [h]
  simp only [add_comparison_data, if_pos hcond]

/-- Witness for C6 at a one-page current dataset and an empty prior dataset. -/
theorem C6_witness :
    add_comparison_data [⟨"a", 10, 2, 1⟩] ⟨false, false, false, false, []⟩
      = [⟨"a", 10, 2, 1, 0, 0, 0, 0⟩] :=
  (C6_missing_prior_columns_defaults [⟨"a", 10, 2, 1⟩]
    ⟨false, false, false, false, []⟩ (Or.inl rfl)).trans rfl

/-- One row of the follower dataset; the count is `some q` when present and
parseable, `none` when `NaN`. -/
structure FollowerRow where
  page : String
  followers : Option ℚ
deriving DecidableEq

/-- A comparison row with the joined (and integer-coerced) follower count. -/
structure LeaderRow extends CompRow where
  followers : ℤ
deriving DecidableEq

/-- `add_follower_data` (analytics.py lines 245-271): left-merge the follower
dataset by page — one output row per matching follower row, or a single
`NaN`-filled row when no follower entry matches — then
`fillna(0).astype(int)` the follower column. -/
def add_follower_data (df : List CompRow) (follower_df : List FollowerRow) :
    List LeaderRow :=
  df.flatMap fun c =>
    match follower_df.filter fun f => f.page = c.page with
    | [] => [{ toCompRow := c, followers := astypeInt ((none : Option ℚ).getD 0) }]
    | ms => ms.map fun f => { toCompRow := c, followers := astypeInt (f.followers.getD 0) }

theorem follower_provenance (df : List CompRow) (fol : List FollowerRow) :
    ∀ r ∈ add_follower_data df fol,
      (∃ f ∈ fol, f.page = r.page ∧ r.followers = astypeInt (f.followers.getD 0)) ∨
      ((fol.filter fun f => f.page = r.page) = [] ∧ r.followers = 0) := by
  intro r hr
  rw [add_follower_data, List.mem_flatMap] at hr
  obtain ⟨c, hc, hrc⟩ := hr
  cases hm : fol.filter fun f => f.page = c.page with
  | nil =>
    rw [hm] at hrc
    simp only [List.mem_singleton] at hrc
    subst hrc
    right
    exact ⟨hm, astypeInt_zero⟩
  | cons f fs =>
    rw [hm] at hrc
    simp only [List.mem_map] at hrc
    obtain ⟨f', hf', hfr⟩ := hrc
    subst hfr
    left
    have hmem : f' ∈ fol.filter fun f => f.page = c.page := by
      rw [hm]; exact hf'
    rw [List.mem_filter, decide_eq_true_eq] at hmem
    exact ⟨f', hmem.1, hmem.2, rfl⟩

/-- Counterexample to C8: a follower dataset with two entries for page `a`
duplicates the single comparison row — the join emits one output row per
matching occurrence, not exactly one per input row. -/
theorem C8_counterexample :
    (add_follower_data [⟨"a", 10, 2, 1, 0, 0, 0, 0⟩]
        [⟨"a", some 10⟩, ⟨"a", some 20⟩]).length = 2 ∧
    ([⟨"a", 10, 2, 1, 0, 0, 0, 0⟩] : List CompRow).length = 1 := by
  constructor
  · with_unfolding_all rfl
  · rfl

/-- C8 amended: the left merge produces, for every comparison row, one
output row per matching follower entry (each carrying that entry's coerced
value), or a single zero-filled row when nothing matches; so duplicate page
identifiers in the follower dataset duplicate the joined row instead of
being collapsed to the first occurrence. -/
theorem C8_amended_row_per_match (df : List CompRow) (fol : List FollowerRow) :
    (add_follower_data df fol).length
      = (df.map fun c => max 1 ((fol.filter fun f => f.page = c.page).length)).sum ∧
    ∀ r ∈ add_follower_data df fol,
      (∃ f ∈ fol, f.page = r.page ∧ r.followers = astypeInt (f.followers.getD 0)) ∨
      ((fol.filter fun f => f.page = r.page) = [] ∧ r.followers = 0) := by
  refine ⟨?_, follower_provenance df fol⟩
  rw [add_follower_data, List.length_flatMap]
  congr 1
  apply List.map_congr_left
  intro c _
  cases hm : fol.filter fun f => f.page = c.page with
  | nil => simp [Function.comp, hm]
  | cons f fs =>
    simp only [Function.comp, hm, List.length_map, List.length_cons]
    rw [Nat.max_eq_right (Nat.succ_le_succ (Nat.zero_le _))]

/-- Witness for C8's amended statement: the first duplicated output row
carries the first matching follower entry's coerced value. -/
theorem C8_amended_witness :
    (∃ f ∈ ([⟨"a", some 10⟩, ⟨"a", some 20⟩] : List FollowerRow),
      f.page = (⟨⟨"a", 10, 2, 1, 0, 0, 0, 0⟩, 10⟩ : LeaderRow).page ∧
      (⟨⟨"a", 10, 2, 1, 0, 0, 0, 0⟩, 10⟩ : LeaderRow).followers
        = astypeInt (f.followers.getD 0)) ∨
    ((([⟨"a", some 10⟩, ⟨"a", some 20⟩] : List FollowerRow).filter
        fun f => f.page = (⟨⟨"a", 10, 2, 1, 0, 0, 0, 0⟩, 10⟩ : LeaderRow).page) = [] ∧
      (⟨⟨"a", 10, 2, 1, 0, 0, 0, 0⟩, 10⟩ : LeaderRow).followers = 0) :=
  (C8_amended_row_per_match [⟨"a", 10, 2, 1, 0, 0, 0, 0⟩]
    [⟨"a", some 10⟩, ⟨"a", some 20⟩]).2
    ⟨⟨"a", 10, 2, 1, 0, 0, 0, 0⟩, 10⟩ (by with_unfolding_all decide)

/-- C9: a comparison row whose page is absent from the follower dataset is
kept by the left join with followers = 0, and in general no comparison row
is dropped. -/
theorem C9_left_join_keeps_rows (df : List CompRow) (fol : List FollowerRow) :
    (∀ c ∈ df, (fol.filter fun f => f.page = c.page) = [] →
      ({ toCompRow := c, followers := 0 } : LeaderRow) ∈ add_follower_data df fol) ∧
    ∀ c ∈ df, ∃ r ∈ add_follower_data df fol, r.toCompRow = c := by
  constructor
  · intro c hc hm
    rw [add_follower_data, List.mem_flatMap]
    refine ⟨c, hc, ?_⟩
    rw [hm]
    simp [astypeInt]
  · intro c hc
    rw [add_follower_data]
    cases hm : fol.filter fun f => f.page = c.page with
    | nil =>
      refine ⟨{ toCompRow := c, followers := astypeInt ((none : Option ℚ).getD 0) },
        ?_, rfl⟩
      rw [List.mem_flatMap]
      exact ⟨c, hc, by rw [hm]; exact List.mem_singleton_self _⟩
    | cons f fs =>
      refine ⟨{ toCompRow := c, followers := astypeInt (f.followers.getD 0) }, ?_, rfl⟩
      rw [List.mem_flatMap]
      refine ⟨c, hc, ?_⟩
      rw [hm]
      exact List.mem_map_of_mem _ (List.mem_cons_self f fs)

/-- Witness for C9 at a page with no follower entry. -/
theorem C9_witness :
    ({ toCompRow := ⟨"a", 10, 2, 1, 0, 0, 0, 0⟩, followers := 0 } : LeaderRow)
      ∈ add_follower_data [⟨"a", 10, 2, 1, 0, 0, 0, 0⟩] [⟨"b", some 3⟩] :=
  (C9_left_join_keeps_rows [⟨"a", 10, 2, 1, 0, 0, 0, 0⟩] [⟨"b", some 3⟩]).1
    ⟨"a", 10, 2, 1, 0, 0, 0, 0⟩ (List.mem_singleton_self _)
    (by with_unfolding_all rfl)

/-- C10: the follower count and the carried-forward `last_fortnight_day_won`
and `last_fortnight_rank` are always integers obtained by `astype(int)` — a
truncation toward zero (at most the source value in absolute value, within
one of it, sign preserved): every follower value in the join output is the
truncation of the matched source value (or 0 without a match), and every
carried-forward prior field is the truncation of the matched prior value
(or the 0 default). -/
theorem C10_integer_truncation :
    (∀ q : ℚ, 0 ≤ q → ((astypeInt q : ℚ) ≤ q ∧ q - 1 < (astypeInt q : ℚ))) ∧
    (∀ q : ℚ, q < 0 → (q ≤ (astypeInt q : ℚ) ∧ (astypeInt q : ℚ) < q + 1)) ∧
    (∀ (df : List CompRow) (fol : List FollowerRow),
      ∀ r ∈ add_follower_data df fol,
        (∃ f ∈ fol, f.page = r.page ∧ r.followers = astypeInt (f.followers.getD 0)) ∨
        r.followers = 0) ∧
    (∀ (current : List PageRecord) (prev : PrevData),
      ∀ r ∈ add_comparison_data current prev,
        (r.last_fortnight_day_won = 0 ∧ r.last_fortnight_rank = 0) ∨
        ∃ m ∈ prev.rows, m.page = r.page ∧
          r.last_fortnight_day_won
            = (if prev.has_day_won then astypeInt (m.day_won.getD 0) else 0) ∧
          r.last_fortnight_rank
            = (if prev.has_rank then astypeInt (m.rank.getD 0) else 0)) := by
  refine ⟨?_, ?_, ?_, ?_⟩
  · intro q hq
    rw [astypeInt, if_pos hq]
    exact ⟨Int.floor_le q, Int.sub_one_lt_floor q⟩
  · intro q hq
    rw [astypeInt, if_neg (not_le.mpr hq)]
    exact ⟨Int.le_ceil q, Int.ceil_lt_add_one q⟩
  · intro df fol r hr
    rcases follower_provenance df fol r hr with h | ⟨_, h⟩
    · exact Or.inl h
    · exact Or.inr h
  · intro current prev r hr
    rw [add_comparison_data] at hr
    by_cases hcols : ¬ (prev.has_post_count && prev.has_engagement)
    · rw [if_pos hcols] at hr
      rcases List.mem_map.mp hr with ⟨c, _, hrc⟩
      subst hrc
      exact Or.inl ⟨rfl, rfl⟩
    · rw [if_neg hcols] at hr
      rw [List.mem_flatMap] at hr
      obtain ⟨c, _, hrc⟩ := hr
      cases hm : prev.rows.filter fun m => m.page = c.page with
      | nil =>
        rw [hm] at hrc
        simp only [List.mem_singleton] at hrc
        subst hrc
        left
        constructor <;> cases hdw : prev.has_day_won <;> cases hrk : prev.has_rank <;>
          simp [astypeInt]
      | cons m ms =>
        rw [hm] at hrc
        simp only [List.mem_map] at hrc
        obtain ⟨m', hm', hmr⟩ := hrc
        subst hmr
        right
        have hmem : m' ∈ prev.rows.filter fun m => m.page = c.page := by
          rw [hm]; exact hm'
        rw [List.mem_filter, decide_eq_true_eq] at hmem
        exact ⟨m', hmem.1, hmem.2, rfl, rfl⟩

/-- Witness for C10's truncation bounds at `q = 21/2` and `q = -21/2`. -/
theorem C10_witness :
    ((astypeInt (21/2) : ℚ) ≤ 21/2 ∧ 21/2 - 1 < (astypeInt (21/2) : ℚ)) ∧
    ((-21/2 : ℚ) ≤ (astypeInt (-21/2) : ℚ) ∧ (astypeInt (-21/2) : ℚ) < -21/2 + 1) :=
  ⟨C10_integer_truncation.1 (21/2) (by with_unfolding_all decide),
   C10_integer_truncation.2.1 (-21/2) (by with_unfolding_all decide)⟩

/-- A leaderboard row with its rank column. -/
structure RankedRow extends LeaderRow where
  rank : ℕ
deriving DecidableEq

/-- The ordering `sort_values('rank')` sorts by. -/
def rankRelLe (a b : RankedRow) : Prop := a.rank ≤ b.rank

instance rankRelLe.decRel : DecidableRel rankRelLe := fun a b => by
  unfold rankRelLe; infer_instance

instance rankRelLe.total : IsTotal RankedRow rankRelLe where
  total a b := Nat.le_total a.rank b.rank

instance rankRelLe.trans : IsTrans RankedRow rankRelLe where
  trans _ _ _ hab hbc := Nat.le_trans hab hbc

/-- `rank_pages` (analytics.py lines 274-293): add
`rank = df[rank_by].rank(ascending=False, method='min').astype(int)` — the
min-rank of a value is one plus the number of strictly greater values — then
sort the frame by the rank column (a stable sort on inputs of this size,
which keeps tied rows in their incoming order). -/
def rank_pages (df : List LeaderRow) : List RankedRow :=
  (df.map fun r =>
    { toLeaderRow := r
      rank := 1 + df.countP fun s => r.total_engagement < s.total_engagement }).insertionSort
    rankRelLe

/-- A leaderboard row carrying only the fields `rank_pages` looks at. -/
def mkLeaderRow (p : String) (e : ℚ) : LeaderRow :=
  ⟨⟨p, e, 0, 0, 0, 0, 0, 0⟩, 0⟩

/-- Counterexample to C5: two pages tied at 300 presented in the order
`b, a` keep that order in the ranked output — tied rows follow the input
order, not the lexicographic page order (which would put `a` first). -/
theorem C5_counterexample :
    ((rank_pages [mkLeaderRow "b" 300, mkLeaderRow "a" 300]).map
      fun r => (r.page, r.rank)) = [("b", 1), ("a", 1)] ∧
    ¬ (("b" : String) ≤ "a") := by
  constructor
  · with_unfolding_all rfl
  · with_unfolding_all decide

/-- C5 amended: `rank_pages` assigns min-ranking by `total_engagement`
descending — each row's rank is 1 plus the number of rows with strictly
greater engagement, so `[300, 300, 100]` receives `[1, 1, 3]` — and the
output is the rank-assigned input sorted ascending by rank; rows tied on
rank stay in their input relative order rather than being reordered by page
identifier. -/
theorem C5_amended_min_ranking (df : List LeaderRow) :
    (∀ r ∈ rank_pages df,
      r.rank = 1 + df.countP fun s => r.total_engagement < s.total_engagement) ∧
    List.Sorted rankRelLe (rank_pages df) ∧
    (rank_pages df).Perm (df.map fun r =>
      { toLeaderRow := r
        rank := 1 + df.countP fun s => r.total_engagement < s.total_engagement }) ∧
    ((rank_pages [mkLeaderRow "x" 300, mkLeaderRow "y" 300, mkLeaderRow "z" 100]).map
      fun r => r.rank) = [1, 1, 3] := by
  refine ⟨?_, List.sorted_insertionSort rankRelLe _,
    List.perm_insertionSort rankRelLe _, ?_⟩
  · intro r hr
    rw [rank_pages, List.mem_insertionSort] at hr
    rcases List.mem_map.mp hr with ⟨s, hs, hsr⟩
    subst hsr
    rfl
  · with_unfolding_all rfl

/-- Witness for C5's amended statement at a one-row input. -/
theorem C5_amended_witness :
    (⟨mkLeaderRow "x" 300, 1⟩ : RankedRow).rank
      = 1 + ([mkLeaderRow "x" 300] : List LeaderRow).countP
          fun s => (⟨mkLeaderRow "x" 300, 1⟩ : RankedRow).total_engagement
            < s.total_engagement :=
  (C5_amended_min_ranking [mkLeaderRow "x" 300]).1 ⟨mkLeaderRow "x" 300, 1⟩
    (by with_unfolding_all decide)
